import Mathlib

/-!
Verification of the oblivious key-value store implemented in
`examples/tutorials/Part 6 - Build an Encrypted, Decentralized Database.ipynb`.

The notebook builds three versions of the store:
* Section 5: `TensorDB` with hashed-scalar keys, variable-length values and a
  decoder (`values2string`) that fails on out-of-table codes;
* Section 6: `DecentralizedDB` with hashed-scalar keys (`hash(k)+1234 mod field`),
  a decoder that maps out-of-table codes to the sentinel `'.'`, and an
  unbounded retry recursion on all-sentinel decodes;
* Section 7: `DecentralizedDB` with one-hot key matrices, fixed-length values
  (truncated / lowercased / right-padded with `'.'`), match-by-multiplication
  and a final `result.replace(".","")`.

Secret sharing is external to the repository (the spec places the substrate
out of scope), and reveal-after-share is plaintext identity, so the store and
query pipeline are embedded over plain integers: a `LongTensor` becomes a
`List Nat` (or `Int` for hashed keys), elementwise tensor operations become
`List.zipWith`, and every Python operation that can raise (`KeyError`,
`IndexError`, shape mismatch on `+`) returns `Option`.
-/

/-- First index of a character in a list, i.e. the lookup `char2int[c]` in the
dictionary built by `for i, c in enumerate(...)`; `none` models `KeyError`. -/
def indexOfChar : List Char → Char → Option Nat
  | [], _ => none
  | a :: rest, c => if a = c then some 0 else (indexOfChar rest c).map (· + 1)

/-- Option-valued map over a list, propagating the first failure: the shape of
every Python `for` loop in the notebook that appends `table[x]` to a list. -/
def mapOpt (f : α → Option β) : List α → Option (List β)
  | [] => some []
  | a :: l => (f a).bind fun b => (mapOpt f l).map fun bs => b :: bs

/-- ASCII characters with codes `lo, lo+1, ..., hi-1`. -/
def asciiRange (lo hi : Nat) : List Char :=
  (List.range (hi - lo)).map (fun i => Char.ofNat (lo + i))

/-- Python `string.ascii_lowercase`. -/
def lowercaseChars : List Char := asciiRange 97 123

/-- Python `string.ascii_uppercase`. -/
def uppercaseChars : List Char := asciiRange 65 91

/-- Python `'0123456789'`. -/
def digitChars : List Char := asciiRange 48 58

/-- Python `string.punctuation`: the 32 ASCII punctuation characters. -/
def punctuationChars : List Char :=
  asciiRange 33 48 ++ asciiRange 58 65 ++ asciiRange 91 97 ++ asciiRange 123 127

/-- Alphabet of Sections 5 and 6:
`' ' + string.ascii_letters + '0123456789' + string.punctuation`. -/
def alphabet56 : List Char :=
  ' ' :: (lowercaseChars ++ uppercaseChars ++ digitChars ++ punctuationChars)

/-- Alphabet of Section 7:
`' ' + string.ascii_lowercase + '0123456789' + string.punctuation`. -/
def alphabet7 : List Char :=
  ' ' :: (lowercaseChars ++ digitChars ++ punctuationChars)

/-- Dictionary lookup `char2int[c]` over an alphabet `ab`. -/
def char2int (ab : List Char) (c : Char) : Option Nat :=
  indexOfChar ab c

/-- Section 5 / 6 `string2key`: `hash(input_str) % field` (Section 5 form).
Python's `hash` is process-specific, so it is a parameter `h`. -/
def string2key5 (h : List Char → Int) (field : Int) (s : List Char) : Int :=
  h s % field

/-- Section 6 `string2key`: `(hash(input_str)+1234) % int(field)`. -/
def string2key6 (h : List Char → Int) (field : Int) (s : List Char) : Int :=
  (h s + 1234) % field

/-- Section 5 / 6 `string2values`: one code per character, no padding;
`none` models the `KeyError` on a character outside the alphabet. -/
def string2values56 (s : List Char) : Option (List Nat) :=
  mapOpt (char2int alphabet56) s

/-- Section 5 `values2string`: `int2char[int(v)]` per code; `none` models the
`KeyError` on an out-of-table code. -/
def values2string5 (vs : List Nat) : Option (List Char) :=
  mapOpt (fun v => alphabet56.get? v) vs

/-- Section 6 `values2string` (also called by the Section 7 query, at which
point the global table `int2char` is the Section 7 alphabet, hence the
parameter `ab`): out-of-table codes decode to the sentinel `'.'`. -/
def values2string6 (ab : List Char) (vs : List Nat) : List Char :=
  vs.map (fun v => (ab.get? v).getD '.')

/-- Truncation / lowercasing / right-padding shared by Section 7's
`string2one_hot_matrix` and `string2values`:
`str_input[:max_len].lower()` followed by padding with `"."`. -/
def fixString (s : List Char) (maxLen : Nat) : List Char :=
  let t := (s.take maxLen).map Char.toLower
  t ++ List.replicate (maxLen - t.length) '.'

/-- Section 7 `string2values(str_input, max_len)`: fixed-width value encoding. -/
def string2values7 (s : List Char) (maxLen : Nat) : Option (List Nat) :=
  mapOpt (char2int alphabet7) (fixString s maxLen)

/-- Section 7 `one_hot(index, length)`: a zero vector of the given length with
position `index` set to one. -/
def oneHot : Nat → Nat → List Nat
  | _, 0 => []
  | 0, n + 1 => 1 :: List.replicate n 0
  | i + 1, n + 1 => 0 :: oneHot i n

/-- One row of the Section 7 one-hot key matrix:
`one_hot(char2int[char], len(int2char))`. -/
def rowEnc (c : Char) : Option (List Nat) :=
  (char2int alphabet7 c).map (fun i => oneHot i alphabet7.length)

/-- Section 7 `string2one_hot_matrix(str_input, max_len)`. -/
def string2one_hot_matrix (s : List Char) (maxLen : Nat) : Option (List (List Nat)) :=
  mapOpt rowEnc (fixString s maxLen)

/-- Modelled from the spec: `pad_or_truncate(s, max_value_len)` as used in the
round-trip property of spec section 8 — truncate to the width, then right-pad
with the pad symbol. The spec's words mention no case folding. -/
def padOrTruncate (s : List Char) (maxLen : Nat) (pad : Char) : List Char :=
  let t := s.take maxLen
  t ++ List.replicate (maxLen - t.length) pad

/-- Elementwise tensor addition; `none` models the shape-mismatch error torch
raises when two value tensors of different lengths are summed. -/
def tensorAdd (a b : List Nat) : Option (List Nat) :=
  if a.length = b.length then some (List.zipWith (· + ·) a b) else none

/-- The aggregation loop `for v in value_match[1:]: final_value = final_value + v`. -/
def sumVecs (acc : List Nat) : List (List Nat) → Option (List Nat)
  | [] => some acc
  | v :: vs => (tensorAdd acc v).bind fun acc2 => sumVecs acc2 vs

/-- The masking loop `for i, value in enumerate(values):
value_match.append(key_match[i].expand(...) * value)`; `none` models the
`IndexError` when `values` is longer than `key_match`. -/
def valueMatch : List Nat → List (List Nat) → Option (List (List Nat))
  | _, [] => some []
  | [], _ :: _ => none
  | m :: ms, v :: vs => (valueMatch ms vs).map (fun r => v.map (fun x => m * x) :: r)

/-- Masking followed by aggregation, shared by every query in the notebook:
`none` on an empty store models the `IndexError` of `value_match[0]`. -/
def aggregate (masks : List Nat) (vals : List (List Nat)) : Option (List Nat) :=
  match valueMatch masks vals with
  | none => none
  | some [] => none
  | some (v :: vm) => sumVecs v vm

/-- The hashed-key match loop `key_match.append((key == qhash).long())`. -/
def tensorKeyMatch (ks : List Int) (qhash : Int) : List Nat :=
  ks.map (fun k => if k = qhash then 1 else 0)

/-- Section 5 `TensorDB` state: the module-level `keys` / `values` lists. -/
structure TensorDB where
  keys : List Int
  values : List (List Nat)
  deriving DecidableEq

/-- Section 5 `TensorDB.add_entry`. -/
def tensorAddEntry (h : List Char → Int) (field : Int) (db : TensorDB)
    (k v : List Char) : Option TensorDB :=
  (string2values56 v).map fun ve =>
    ⟨db.keys ++ [string2key5 h field k], db.values ++ [ve]⟩

/-- Section 5 `TensorDB.query`. -/
def tensorQuery (h : List Char → Int) (field : Int) (db : TensorDB)
    (q : List Char) : Option (List Char) :=
  (aggregate (tensorKeyMatch db.keys (string2key5 h field q)) db.values).bind
    values2string5

/-- Section 6 `DecentralizedDB.add_entry` (hashed keys; the shares are held by
the owners, reconstruction being the identity in the plaintext embedding the
state is the same keys/values pair of lists as `TensorDB`). -/
def hashedAddEntry (h : List Char → Int) (field : Int) (db : TensorDB)
    (k v : List Char) : Option TensorDB :=
  (string2values56 v).map fun ve =>
    ⟨db.keys ++ [string2key6 h field k], db.values ++ [ve]⟩

/-- Section 7 `DecentralizedDB` state and configuration. -/
structure OneHotDB where
  maxKeyLen : Nat
  maxValueLen : Nat
  keys : List (List (List Nat))
  values : List (List Nat)
  deriving DecidableEq

/-- Section 7 `DecentralizedDB.add_entry`: both encodings are computed before
either append, so a `KeyError` leaves the store unchanged (`none`). -/
def ohAddEntry (db : OneHotDB) (k v : List Char) : Option OneHotDB :=
  (string2one_hot_matrix k db.maxKeyLen).bind fun ke =>
    (string2values7 v db.maxValueLen).map fun ve =>
      ⟨db.maxKeyLen, db.maxValueLen, db.keys ++ [ke], db.values ++ [ve]⟩

/-- The per-record dot products `vect = (key * query).sum(1)` of Section 7. -/
def rowDots (key query : List (List Nat)) : List Nat :=
  List.zipWith (fun r q => (List.zipWith (· * ·) r q).sum) key query

/-- The Section 7 match reduction
`x = vect[0]; for i in range(vect.get_shape()[0]): x = x * vect[i]`
(note the loop multiplies `vect[0]` in again); `none` models the `IndexError`
of `vect[0]` when `max_key_len = 0`. -/
def matchScalar (vect : List Nat) : Option Nat :=
  match vect with
  | [] => none
  | v0 :: _ => some (vect.foldl (· * ·) v0)

/-- Section 7 `DecentralizedDB.query`: encode the query, match every key by
multiplication, mask, aggregate, decode with the sentinel decoder and strip
every `'.'` (`result.replace(".","")`). -/
def ohQuery (db : OneHotDB) (q : List Char) : Option (List Char) :=
  (string2one_hot_matrix q db.maxKeyLen).bind fun qe =>
    (mapOpt (fun key => matchScalar (rowDots key qe)) db.keys).bind fun masks =>
      (aggregate masks db.values).map fun fin =>
        (values2string6 alphabet7 fin).filter (fun c => c ≠ '.')

/-- Building a store by repeated `add_entry`, starting from a given state. -/
def buildTensorDB (h : List Char → Int) (field : Int) :
    TensorDB → List (List Char × List Char) → Option TensorDB
  | db, [] => some db
  | db, e :: es => (tensorAddEntry h field db e.1 e.2).bind fun db2 =>
      buildTensorDB h field db2 es

/-- Building a Section 7 store by repeated `add_entry`. -/
def buildOneHotDB : OneHotDB → List (List Char × List Char) → Option OneHotDB
  | db, [] => some db
  | db, e :: es => (ohAddEntry db e.1 e.2).bind fun db2 => buildOneHotDB db2 es

/-- The retry recursion of Section 6's `DecentralizedDB.query`:
`if(list(set(result))[0] == '.'): return self.query(str_query)`.
The reveal is nondeterministic in the source (reconstruction noise), so the
decoded reveal of attempt `t` is given by the stream `decodeAt`, and the
sentinel test (whose outcome on mixed strings depends on Python's set
ordering) is the parameter `check`. The source recursion has no bound;
`fuel` counts how many retries we are willing to unfold, and `none` means the
recursion has not returned within that many retries. -/
def queryRetry (check : List Char → Bool) (decodeAt : Nat → List Char) :
    Nat → Nat → Option (List Char)
  | 0, t => if check (decodeAt t) then none else some (decodeAt t)
  | fuel + 1, t =>
      if check (decodeAt t) then queryRetry check decodeAt fuel (t + 1)
      else some (decodeAt t)

/-- A concrete ASCII-sum stand-in for Python's process-specific string hash,
used only to instantiate the hash parameter in concrete evaluations. -/
def hashAscii (s : List Char) : Int :=
  ((s.map Char.toNat).sum : Nat)

/-! ### Lookup-table lemmas -/

theorem indexOfChar_get? : ∀ (l : List Char) (c : Char) (j : Nat),
    indexOfChar l c = some j → l.get? j = some c := by
  intro l
  induction l with
  | nil => intro c j h; simp [indexOfChar] at h
  | cons a rest ih =>
    intro c j h
    by_cases hac : a = c
    · simp [indexOfChar, hac] at h
      subst h
      simp [hac]
    · simp [indexOfChar, hac, Option.map_eq_some'] at h
      obtain ⟨j2, hj2, rfl⟩ := h
      simpa using ih c j2 hj2

theorem indexOfChar_lt : ∀ (l : List Char) (c : Char) (j : Nat),
    indexOfChar l c = some j → j < l.length := by
  intro l
  induction l with
  | nil => intro c j h; simp [indexOfChar] at h
  | cons a rest ih =>
    intro c j h
    by_cases hac : a = c
    · simp [indexOfChar, hac] at h
      subst h
      simp
    · simp [indexOfChar, hac, Option.map_eq_some'] at h
      obtain ⟨j2, hj2, rfl⟩ := h
      have := ih c j2 hj2
      simp only [List.length_cons]
      omega

theorem char2int_get? (ab : List Char) (c : Char) (j : Nat)
    (h : char2int ab c = some j) : ab.get? j = some c :=
  indexOfChar_get? ab c j h

theorem char2int_lt (ab : List Char) (c : Char) (j : Nat)
    (h : char2int ab c = some j) : j < ab.length :=
  indexOfChar_lt ab c j h


theorem char2int_inj (ab : List Char) (a b : Char) (j : Nat)
    (ha : char2int ab a = some j) (hb : char2int ab b = some j) : a = b := by
  have h1 := char2int_get? ab a j ha
  have h2 := char2int_get? ab b j hb
  rw [h1] at h2
  exact (Option.some_inj.mp h2)

/-! ### `mapOpt` lemmas -/

theorem mapOpt_length {f : α → Option β} : ∀ (l : List α) (r : List β),
    mapOpt f l = some r → r.length = l.length := by
  intro l
  induction l with
  | nil => intro r h; simp [mapOpt] at h; subst h; rfl
  | cons a t ih =>
    intro r h
    simp only [mapOpt, Option.bind_eq_some, Option.map_eq_some'] at h
    obtain ⟨b, _, r2, hr2, rfl⟩ := h
    simp [ih r2 hr2]

theorem mapOpt_get {f : α → Option β} : ∀ (l : List α) (r : List β),
    mapOpt f l = some r → ∀ (i : Nat) (hi : i < l.length) (hi2 : i < r.length),
      f (l.get ⟨i, hi⟩) = some (r.get ⟨i, hi2⟩) := by
  intro l
  induction l with
  | nil => intro r h i hi; simp at hi
  | cons a t ih =>
    intro r h i hi hi2
    simp only [mapOpt, Option.bind_eq_some, Option.map_eq_some'] at h
    obtain ⟨b, hb, r2, hr2, rfl⟩ := h
    match i with
    | 0 => simpa using hb
    | i + 1 =>
      simp only [List.get_cons_succ]
      exact ih r2 hr2 i (by simpa using hi) (by simpa using hi2)

theorem mapOpt_mem {f : α → Option β} : ∀ (l : List α) (r : List β),
    mapOpt f l = some r → ∀ b ∈ r, ∃ a ∈ l, f a = some b := by
  intro l
  induction l with
  | nil => intro r h b hb; simp [mapOpt] at h; subst h; simp at hb
  | cons a t ih =>
    intro r h b hb
    simp only [mapOpt, Option.bind_eq_some, Option.map_eq_some'] at h
    obtain ⟨b2, hb2, r2, hr2, rfl⟩ := h
    rcases List.mem_cons.mp hb with h1 | h1
    · exact ⟨a, List.mem_cons_self a t, h1 ▸ hb2⟩
    · obtain ⟨a2, ha2, hfa2⟩ := ih r2 hr2 b h1
      exact ⟨a2, List.mem_cons_of_mem a ha2, hfa2⟩

theorem mapOpt_total {f : α → Option β} : ∀ (l : List α),
    (∀ a ∈ l, ∃ b, f a = some b) → ∃ r, mapOpt f l = some r := by
  intro l
  induction l with
  | nil => intro _; exact ⟨[], rfl⟩
  | cons a t ih =>
    intro h
    obtain ⟨b, hb⟩ := h a (List.mem_cons_self a t)
    obtain ⟨r, hr⟩ := ih (fun x hx => h x (List.mem_cons_of_mem a hx))
    exact ⟨b :: r, by simp [mapOpt, hb, hr]⟩

/-! ### Shape lemmas for the encoders -/

theorem fixString_length (s : List Char) (maxLen : Nat) :
    (fixString s maxLen).length = maxLen := by
  simp only [fixString, List.length_append, List.length_replicate,
    List.length_map, List.length_take]
  omega

theorem string2values7_length (s : List Char) (maxLen : Nat) (enc : List Nat)
    (h : string2values7 s maxLen = some enc) : enc.length = maxLen := by
  have := mapOpt_length _ _ h
  rw [fixString_length] at this
  exact this

/-! ### Zero-vector algebra for masking and aggregation -/

theorem zipWith_add_zero_right : ∀ (a z : List Nat), (∀ x ∈ z, x = 0) →
    a.length = z.length → List.zipWith (· + ·) a z = a := by
  intro a
  induction a with
  | nil => intro z _ _; simp
  | cons x t ih =>
    intro z hz hlen
    match z with
    | [] => simp at hlen
    | y :: zt =>
      have hy : y = 0 := hz y (List.mem_cons_self y zt)
      simp only [List.zipWith_cons_cons, hy, Nat.add_zero]
      rw [ih zt (fun w hw => hz w (List.mem_cons_of_mem y hw)) (by simpa using hlen)]

theorem zipWith_add_zero_left : ∀ (z a : List Nat), (∀ x ∈ z, x = 0) →
    z.length = a.length → List.zipWith (· + ·) z a = a := by
  intro z
  induction z with
  | nil =>
    intro a _ hlen
    match a with
    | [] => simp
    | x :: t => simp at hlen
  | cons y zt ih =>
    intro a hz hlen
    match a with
    | [] => simp at hlen
    | x :: t =>
      have hy : y = 0 := hz y (List.mem_cons_self y zt)
      simp only [List.zipWith_cons_cons, hy, Nat.zero_add]
      rw [ih t (fun w hw => hz w (List.mem_cons_of_mem y hw)) (by simpa using hlen)]

theorem tensorAdd_zero_right (a z : List Nat) (hz : ∀ x ∈ z, x = 0)
    (hlen : z.length = a.length) : tensorAdd a z = some a := by
  simp [tensorAdd, hlen.symm, zipWith_add_zero_right a z hz hlen.symm]

theorem tensorAdd_zero_left (z a : List Nat) (hz : ∀ x ∈ z, x = 0)
    (hlen : z.length = a.length) : tensorAdd z a = some a := by
  simp [tensorAdd, hlen, zipWith_add_zero_left z a hz hlen]

theorem sumVecs_zeros : ∀ (l : List (List Nat)) (acc : List Nat),
    (∀ w ∈ l, w.length = acc.length ∧ ∀ x ∈ w, x = 0) → sumVecs acc l = some acc := by
  intro l
  induction l with
  | nil => intro acc _; rfl
  | cons w t ih =>
    intro acc h
    have hw := h w (List.mem_cons_self w t)
    have h1 : tensorAdd acc w = some acc := tensorAdd_zero_right acc w hw.2 hw.1
    simp only [sumVecs, h1, Option.some_bind]
    exact ih acc (fun v hv => h v (List.mem_cons_of_mem w hv))
theorem map_one_mul (v : List Nat) : v.map (fun x => 1 * x) = v := by
  simp

theorem map_zero_mul (v : List Nat) : ∀ x ∈ v.map (fun x => 0 * x), x = 0 := by
  intro x hx
  simp only [List.mem_map] at hx
  obtain ⟨a, _, rfl⟩ := hx
  exact Nat.zero_mul a

/-! ### `valueMatch` and `aggregate` unfolding lemmas -/

theorem valueMatch_nil (ms : List Nat) : valueMatch ms [] = some [] := by
  cases ms <;> rfl

theorem valueMatch_cons (m : Nat) (ms : List Nat) (v : List Nat)
    (vs : List (List Nat)) : valueMatch (m :: ms) (v :: vs) =
    (valueMatch ms vs).map (fun r => v.map (fun x => m * x) :: r) := rfl

theorem valueMatch_elim (v : List Nat) (vs : List (List Nat)) :
    valueMatch [] (v :: vs) = none := rfl

theorem aggregate_of_none (ms : List Nat) (vs : List (List Nat))
    (h : valueMatch ms vs = none) : aggregate ms vs = none := by
  rw [aggregate, h]

theorem aggregate_of_empty (ms : List Nat) (vs : List (List Nat))
    (h : valueMatch ms vs = some []) : aggregate ms vs = none := by
  rw [aggregate, h]

theorem aggregate_of_cons (ms : List Nat) (vs : List (List Nat)) (v : List Nat)
    (vm : List (List Nat)) (h : valueMatch ms vs = some (v :: vm)) :
    aggregate ms vs = sumVecs v vm := by
  rw [aggregate, h]

theorem valueMatch_total : ∀ (vs : List (List Nat)) (ms : List Nat),
    vs.length ≤ ms.length → ∃ vm, valueMatch ms vs = some vm := by
  intro vs
  induction vs with
  | nil => intro ms _; exact ⟨[], valueMatch_nil ms⟩
  | cons v vt ih =>
    intro ms hlen
    match ms with
    | [] => simp at hlen
    | m :: mt =>
      obtain ⟨vm, hvm⟩ := ih mt (by simpa using hlen)
      exact ⟨v.map (fun x => m * x) :: vm, by rw [valueMatch_cons, hvm]; rfl⟩

theorem valueMatch_length : ∀ (vs : List (List Nat)) (ms : List Nat)
    (vm : List (List Nat)), valueMatch ms vs = some vm → vm.length = vs.length := by
  intro vs
  induction vs with
  | nil =>
    intro ms vm h
    rw [valueMatch_nil ms] at h
    rw [← Option.some_inj.mp h]
  | cons v vt ih =>
    intro ms vm h
    match ms with
    | [] => rw [valueMatch_elim] at h; exact absurd h (by simp)
    | m :: mt =>
      rw [valueMatch_cons, Option.map_eq_some'] at h
      obtain ⟨r, hr, rfl⟩ := h
      simp [ih mt r hr]

theorem valueMatch_mem : ∀ (vs : List (List Nat)) (ms : List Nat)
    (vm : List (List Nat)), valueMatch ms vs = some vm →
    ∀ w ∈ vm, ∃ m v, m ∈ ms ∧ v ∈ vs ∧ w = v.map (fun x => m * x) := by
  intro vs
  induction vs with
  | nil =>
    intro ms vm h w hw
    rw [valueMatch_nil ms] at h
    rw [← Option.some_inj.mp h] at hw
    simp at hw
  | cons v vt ih =>
    intro ms vm h w hw
    match ms with
    | [] => rw [valueMatch_elim] at h; exact absurd h (by simp)
    | m :: mt =>
      rw [valueMatch_cons, Option.map_eq_some'] at h
      obtain ⟨r, hr, rfl⟩ := h
      rcases List.mem_cons.mp hw with h1 | h1
      · exact ⟨m, v, List.mem_cons_self m mt, List.mem_cons_self v vt, h1⟩
      · obtain ⟨m2, v2, hm2, hv2, hw2⟩ := ih mt r hr w h1
        exact ⟨m2, v2, List.mem_cons_of_mem m hm2, List.mem_cons_of_mem v hv2, hw2⟩

/-- Selection: when the mask list is the indicator of position `i` and all
values have a common length, masking followed by aggregation returns exactly
the `i`-th value. -/
theorem agg_select : ∀ (i : Nat) (ms : List Nat) (vs : List (List Nat)) (Lv : Nat),
    ms.length = vs.length →
    (∀ w ∈ vs, w.length = Lv) →
    (∀ (j : Nat) (hj : j < ms.length), ms.get ⟨j, hj⟩ = if j = i then 1 else 0) →
    ∀ (hi : i < vs.length), aggregate ms vs = some (vs.get ⟨i, hi⟩) := by
  intro i
  induction i with
  | zero =>
    intro ms vs Lv hlen hL hind hi
    match vs, hi with
    | v :: vt, hi =>
      match ms, hlen with
      | m :: mt, hlen =>
        have hm : m = 1 := by simpa using hind 0 (by simp)
        have hmt : ∀ m2 ∈ mt, m2 = 0 := by
          intro m2 hm2
          obtain ⟨⟨j, hj⟩, rfl⟩ := List.mem_iff_get.mp hm2
          have hj2 : j + 1 < (m :: mt).length := by simp; omega
          have := hind (j + 1) hj2
          simpa using this
        obtain ⟨vm, hvm⟩ := valueMatch_total vt mt (by simp at hlen; omega)
        have hzero : ∀ w ∈ vm, w.length = v.length ∧ ∀ x ∈ w, x = 0 := by
          intro w hw
          obtain ⟨m2, v2, hm2, hv2, rfl⟩ := valueMatch_mem vt mt vm hvm w hw
          have hm20 : m2 = 0 := hmt m2 hm2
          constructor
          · rw [List.length_map, hL v2 (List.mem_cons_of_mem v hv2),
              hL v (List.mem_cons_self v vt)]
          · intro x hx
            subst hm20
            exact map_zero_mul v2 x hx
        have hvm2 : valueMatch (m :: mt) (v :: vt) =
            some (v.map (fun x => m * x) :: vm) := by
          rw [valueMatch_cons, hvm]; rfl
        subst hm
        rw [map_one_mul] at hvm2
        rw [aggregate_of_cons _ _ _ _ hvm2]
        simpa using sumVecs_zeros vm v hzero
  | succ k ih =>
    intro ms vs Lv hlen hL hind hi
    match vs, hi with
    | v :: vt, hi =>
      match ms, hlen with
      | m :: mt, hlen =>
        have hm : m = 0 := by simpa using hind 0 (by simp)
        have hk : k < vt.length := by simpa using hi
        have hind2 : ∀ (j : Nat) (hj : j < mt.length),
            mt.get ⟨j, hj⟩ = if j = k then 1 else 0 := by
          intro j hj
          have hj2 : j + 1 < (m :: mt).length := by simp; omega
          have := hind (j + 1) hj2
          simpa using this
        have hIH := ih mt vt Lv (by simpa using hlen)
          (fun w hw => hL w (List.mem_cons_of_mem v hw)) hind2 hk
        rcases hvm : valueMatch mt vt with _ | vm
        · rw [aggregate_of_none _ _ hvm] at hIH; simp at hIH
        · match vm, hvm with
          | [], hvm => rw [aggregate_of_empty _ _ hvm] at hIH; simp at hIH
          | w :: rest, hvm =>
            rw [aggregate_of_cons _ _ _ _ hvm] at hIH
            have hwlen : w.length = Lv := by
              obtain ⟨m2, v2, _, hv2, rfl⟩ :=
                valueMatch_mem vt mt (w :: rest) hvm w (List.mem_cons_self w rest)
              rw [List.length_map]
              exact hL v2 (List.mem_cons_of_mem v hv2)
            have hvm2 : valueMatch (m :: mt) (v :: vt) =
                some (v.map (fun x => m * x) :: w :: rest) := by
              rw [valueMatch_cons, hvm]; rfl
            subst hm
            have hmask0 : ∀ x ∈ v.map (fun x => 0 * x), x = 0 := map_zero_mul v
            have hmasklen : (v.map (fun x => 0 * x)).length = w.length := by
              rw [List.length_map, hwlen, hL v (List.mem_cons_self v vt)]
            rw [aggregate_of_cons _ _ _ _ hvm2]
            simp only [sumVecs, tensorAdd_zero_left _ w hmask0 hmasklen,
              Option.some_bind]
            rw [hIH]
            rfl

/-! ### Indicator masks from distinct hashed keys -/

theorem tensorKeyMatch_length (ks : List Int) (q : Int) :
    (tensorKeyMatch ks q).length = ks.length := by
  simp [tensorKeyMatch]

theorem tensorKeyMatch_get (ks : List Int) (q : Int) (j : Nat)
    (hj : j < ks.length) (hj2 : j < (tensorKeyMatch ks q).length) :
    (tensorKeyMatch ks q).get ⟨j, hj2⟩ = if ks.get ⟨j, hj⟩ = q then 1 else 0 := by
  simp [tensorKeyMatch]

theorem tensorKeyMatch_indicator (ks : List Int) (hnd : ks.Nodup) (i : Nat)
    (hi : i < ks.length) (j : Nat) (hj : j < (tensorKeyMatch ks (ks.get ⟨i, hi⟩)).length) :
    (tensorKeyMatch ks (ks.get ⟨i, hi⟩)).get ⟨j, hj⟩ = if j = i then 1 else 0 := by
  have hj2 : j < ks.length := by
    rw [tensorKeyMatch_length] at hj
    exact hj
  rw [tensorKeyMatch_get ks _ j hj2 hj]
  by_cases hij : j = i
  · subst hij
    simp
  · have hne : ks.get ⟨j, hj2⟩ ≠ ks.get ⟨i, hi⟩ := by
      intro hc
      exact hij (by simpa using hnd.get_inj_iff.mp hc)
    simp only [List.get_eq_getElem] at hne
    simp [hne, hij]

/-! ### Store-construction characterizations -/

theorem buildTensor_spec (h : List Char → Int) (f : Int) :
    ∀ (entries : List (List Char × List Char)) (db0 db : TensorDB),
    buildTensorDB h f db0 entries = some db →
    ∃ vs, mapOpt (fun e => string2values56 e.2) entries = some vs ∧
      db.keys = db0.keys ++ entries.map (fun e => string2key5 h f e.1) ∧
      db.values = db0.values ++ vs := by
  intro entries
  induction entries with
  | nil =>
    intro db0 db hb
    have : db0 = db := Option.some_inj.mp hb
    subst this
    exact ⟨[], rfl, by simp, by simp⟩
  | cons e es ih =>
    intro db0 db hb
    rw [buildTensorDB, Option.bind_eq_some] at hb
    obtain ⟨db1, hdb1, hrest⟩ := hb
    rw [tensorAddEntry, Option.map_eq_some'] at hdb1
    obtain ⟨ve, hve, hdb1e⟩ := hdb1
    obtain ⟨vs, hvs, hkeys, hvals⟩ := ih db1 db hrest
    refine ⟨ve :: vs, by simp [mapOpt, hve, hvs], ?_, ?_⟩
    · rw [hkeys, ← hdb1e]
      simp
    · rw [hvals, ← hdb1e]
      simp

theorem buildOneHot_spec :
    ∀ (entries : List (List Char × List Char)) (db0 db : OneHotDB),
    buildOneHotDB db0 entries = some db →
    db.maxKeyLen = db0.maxKeyLen ∧ db.maxValueLen = db0.maxValueLen ∧
    ∃ ks vs,
      mapOpt (fun e => string2one_hot_matrix e.1 db0.maxKeyLen) entries = some ks ∧
      mapOpt (fun e => string2values7 e.2 db0.maxValueLen) entries = some vs ∧
      db.keys = db0.keys ++ ks ∧ db.values = db0.values ++ vs := by
  intro entries
  induction entries with
  | nil =>
    intro db0 db hb
    have : db0 = db := Option.some_inj.mp hb
    subst this
    exact ⟨rfl, rfl, [], [], rfl, rfl, by simp, by simp⟩
  | cons e es ih =>
    intro db0 db hb
    rw [buildOneHotDB, Option.bind_eq_some] at hb
    obtain ⟨db1, hdb1, hrest⟩ := hb
    rw [ohAddEntry, Option.bind_eq_some] at hdb1
    obtain ⟨ke, hke, hdb1m⟩ := hdb1
    rw [Option.map_eq_some'] at hdb1m
    obtain ⟨ve, hve, hdb1e⟩ := hdb1m
    obtain ⟨hK, hV, ks, vs, hks, hvs, hkeys, hvals⟩ := ih db1 db hrest
    have hdbK : db1.maxKeyLen = db0.maxKeyLen := by rw [← hdb1e]
    have hdbV : db1.maxValueLen = db0.maxValueLen := by rw [← hdb1e]
    refine ⟨by rw [hK, hdbK], by rw [hV, hdbV], ke :: ks, ve :: vs, ?_, ?_, ?_, ?_⟩
    · rw [hdbK] at hks
      simp [mapOpt, hke, hks]
    · rw [hdbV] at hvs
      simp [mapOpt, hve, hvs]
    · rw [hkeys, ← hdb1e]
      simp
    · rw [hvals, ← hdb1e]
      simp

/-! ### Decoder round trips -/

theorem decode_table_roundtrip (ab : List Char) : ∀ (s : List Char) (enc : List Nat),
    mapOpt (char2int ab) s = some enc →
    mapOpt (fun v => ab.get? v) enc = some s := by
  intro s
  induction s with
  | nil =>
    intro enc h
    rw [← Option.some_inj.mp h]
    rfl
  | cons c t ih =>
    intro enc h
    simp only [mapOpt, Option.bind_eq_some, Option.map_eq_some'] at h
    obtain ⟨j, hj, et, het, rfl⟩ := h
    simp only [mapOpt, Option.bind_eq_some, Option.map_eq_some']
    exact ⟨c, char2int_get? ab c j hj, t, ih et het, rfl⟩

theorem decode_sentinel_roundtrip (ab : List Char) : ∀ (s : List Char) (enc : List Nat),
    mapOpt (char2int ab) s = some enc →
    values2string6 ab enc = s := by
  intro s
  induction s with
  | nil =>
    intro enc h
    rw [← Option.some_inj.mp h]
    rfl
  | cons c t ih =>
    intro enc h
    simp only [mapOpt, Option.bind_eq_some, Option.map_eq_some'] at h
    obtain ⟨j, hj, et, het, rfl⟩ := h
    simp only [values2string6, List.map_cons]
    rw [char2int_get? ab c j hj]
    have := ih et het
    rw [values2string6] at this
    rw [this]
    rfl

/-- Aggregation core for the hashed-key engines: with pairwise-distinct stored
keys and uniform value lengths, querying the `i`-th key aggregates to exactly
the `i`-th stored value encoding. -/
theorem tensorAggregate_select (ks : List Int) (vs : List (List Nat)) (n i : Nat)
    (hlen : ks.length = vs.length) (hnd : ks.Nodup)
    (hvsL : ∀ w ∈ vs, w.length = n)
    (hi : i < ks.length) (hivs : i < vs.length) :
    aggregate (tensorKeyMatch ks (ks.get ⟨i, hi⟩)) vs = some (vs.get ⟨i, hivs⟩) :=
  agg_select i (tensorKeyMatch ks (ks.get ⟨i, hi⟩)) vs n
    (by rw [tensorKeyMatch_length]; exact hlen) hvsL
    (fun j hj => tensorKeyMatch_indicator ks hnd i hi j hj) hivs

/-- Section 5 `TensorDB`: a store built by `add_entry` from entries with
pairwise-distinct encoded keys and values of a common length answers
`query(key_i)` with exactly `value_i`. -/
theorem tensorQuery_returns (h : List Char → Int) (f : Int)
    (entries : List (List Char × List Char)) (db : TensorDB) (n : Nat)
    (hb : buildTensorDB h f ⟨[], []⟩ entries = some db)
    (hnd : (entries.map (fun e => string2key5 h f e.1)).Nodup)
    (hlen : ∀ e ∈ entries, e.2.length = n)
    (i : Nat) (hi : i < entries.length) :
    tensorQuery h f db (entries.get ⟨i, hi⟩).1 = some (entries.get ⟨i, hi⟩).2 := by
  obtain ⟨vs, hvs, hkeys, hvals⟩ := buildTensor_spec h f entries ⟨[], []⟩ db hb
  simp only [List.nil_append] at hkeys hvals
  have hvslen : vs.length = entries.length := mapOpt_length entries vs hvs
  have hikey : i < (entries.map (fun e => string2key5 h f e.1)).length := by
    simpa using hi
  have hivs : i < vs.length := by rw [hvslen]; exact hi
  have hq : string2key5 h f (entries.get ⟨i, hi⟩).1
      = (entries.map (fun e => string2key5 h f e.1)).get ⟨i, hikey⟩ := by
    simp
  have hvsL : ∀ w ∈ vs, w.length = n := by
    intro w hw
    obtain ⟨e, he, hfe⟩ := mapOpt_mem entries vs hvs w hw
    have hfe2 : mapOpt (char2int alphabet56) e.2 = some w := hfe
    rw [mapOpt_length e.2 w hfe2]
    exact hlen e he
  have hagg : aggregate
      (tensorKeyMatch (entries.map (fun e => string2key5 h f e.1))
        (string2key5 h f (entries.get ⟨i, hi⟩).1)) vs = some (vs.get ⟨i, hivs⟩) := by
    rw [hq]
    exact tensorAggregate_select _ vs n i (by simp [hvslen]) hnd hvsL hikey hivs
  have henc : string2values56 (entries.get ⟨i, hi⟩).2 = some (vs.get ⟨i, hivs⟩) :=
    mapOpt_get entries vs hvs i hi hivs
  have hdec : values2string5 (vs.get ⟨i, hivs⟩) = some (entries.get ⟨i, hi⟩).2 :=
    decode_table_roundtrip alphabet56 (entries.get ⟨i, hi⟩).2 (vs.get ⟨i, hivs⟩) henc
  rw [tensorQuery, hkeys, hvals, hagg]
  simpa using hdec

/-! ### One-hot dot products -/

theorem zip_mul_zero_left : ∀ (n : Nat) (l : List Nat),
    (List.zipWith (· * ·) (List.replicate n 0) l).sum = 0 := by
  intro n
  induction n with
  | zero => intro l; simp
  | succ n ih =>
    intro l
    cases l with
    | nil => simp
    | cons x t => simp [List.replicate_succ, ih t]

theorem zip_mul_zero_right : ∀ (n : Nat) (l : List Nat),
    (List.zipWith (· * ·) l (List.replicate n 0)).sum = 0 := by
  intro n
  induction n with
  | zero => intro l; simp
  | succ n ih =>
    intro l
    cases l with
    | nil => simp
    | cons x t => simp [List.replicate_succ, ih t]

theorem dot_oneHot : ∀ (n i j : Nat), i < n → j < n →
    (List.zipWith (· * ·) (oneHot i n) (oneHot j n)).sum = if i = j then 1 else 0 := by
  intro n
  induction n with
  | zero => intro i j hi _; omega
  | succ n ih =>
    intro i j hi hj
    match i, j with
    | 0, 0 => simp [oneHot, zip_mul_zero_left]
    | 0, j + 1 =>
      have : (0 : Nat) ≠ j + 1 := by omega
      simp [oneHot, zip_mul_zero_left, this]
    | i + 1, 0 =>
      have : i + 1 ≠ 0 := by omega
      simp [oneHot, zip_mul_zero_right, this]
    | i + 1, j + 1 =>
      simp only [oneHot, List.zipWith_cons_cons, Nat.zero_mul, List.sum_cons,
        Nat.zero_add]
      rw [ih i j (by omega) (by omega)]
      by_cases hij : i = j
      · simp [hij]
      · have h2 : i + 1 ≠ j + 1 := by omega
        simp [hij, h2]

/-- The per-position dot products of two one-hot key matrices are the
character-equality indicators of the underlying (fixed) strings. -/
theorem rowDots_enc : ∀ (s t : List Char) (km qm : List (List Nat)),
    mapOpt rowEnc s = some km → mapOpt rowEnc t = some qm →
    rowDots km qm =
      List.zipWith (fun c d => if c = d then (1 : Nat) else 0) s t := by
  intro s
  induction s with
  | nil =>
    intro t km qm hk _
    rw [← Option.some_inj.mp hk]
    simp [rowDots]
  | cons c s2 ih =>
    intro t km qm hk hq
    simp only [mapOpt, Option.bind_eq_some, Option.map_eq_some'] at hk
    obtain ⟨rc, hrc, ksr, hksr, rfl⟩ := hk
    cases t with
    | nil =>
      rw [← Option.some_inj.mp hq]
      simp [rowDots]
    | cons d t2 =>
      simp only [mapOpt, Option.bind_eq_some, Option.map_eq_some'] at hq
      obtain ⟨rd, hrd, qsr, hqsr, rfl⟩ := hq
      rw [rowEnc, Option.map_eq_some'] at hrc
      obtain ⟨ic, hic, rfl⟩ := hrc
      rw [rowEnc, Option.map_eq_some'] at hrd
      obtain ⟨id, hid, rfl⟩ := hrd
      have hdot := dot_oneHot alphabet7.length ic id
        (char2int_lt _ _ _ hic) (char2int_lt _ _ _ hid)
      simp only [rowDots, List.zipWith_cons_cons]
      congr 1
      · rw [hdot]
        by_cases hcd : c = d
        · have hicd : ic = id := by
            rw [hcd] at hic
            exact Option.some_inj.mp (hic.symm.trans hid)
          simp [hcd, hicd]
        · have hicd : ic ≠ id := by
            intro he
            rw [he] at hic
            exact hcd (char2int_inj alphabet7 c d id hic hid)
          simp [hcd, hicd]
      · exact ih t2 ksr qsr hksr hqsr

/-! ### The match reduction -/

theorem foldl_mul_zero : ∀ (l : List Nat), l.foldl (· * ·) 0 = 0 := by
  intro l
  induction l with
  | nil => rfl
  | cons x t ih => simpa using ih

theorem foldl_mul_mem_zero : ∀ (l : List Nat) (a : Nat), 0 ∈ l →
    l.foldl (· * ·) a = 0 := by
  intro l
  induction l with
  | nil => intro a ha; simp at ha
  | cons x t ih =>
    intro a ha
    rcases List.mem_cons.mp ha with h1 | h1
    · simp only [List.foldl_cons, ← h1, Nat.mul_zero]
      exact foldl_mul_zero t
    · simp only [List.foldl_cons]
      exact ih (a * x) h1

theorem foldl_mul_ones : ∀ (l : List Nat), (∀ x ∈ l, x = 1) → ∀ (a : Nat),
    l.foldl (· * ·) a = a := by
  intro l
  induction l with
  | nil => intro _ a; rfl
  | cons x t ih =>
    intro hl a
    have hx : x = 1 := hl x (List.mem_cons_self x t)
    simp only [List.foldl_cons, hx, Nat.mul_one]
    exact ih (fun y hy => hl y (List.mem_cons_of_mem x hy)) a

theorem zip_ind_self : ∀ (s : List Char),
    List.zipWith (fun c d => if c = d then (1 : Nat) else 0) s s =
      List.replicate s.length 1 := by
  intro s
  induction s with
  | nil => rfl
  | cons c t ih => simp [List.replicate_succ, ih]

theorem zero_mem_zip_ind : ∀ (s t : List Char), s.length = t.length → s ≠ t →
    (0 : Nat) ∈ List.zipWith (fun c d => if c = d then (1 : Nat) else 0) s t := by
  intro s
  induction s with
  | nil =>
    intro t hlen hne
    cases t with
    | nil => exact absurd rfl hne
    | cons d t2 => simp at hlen
  | cons c s2 ih =>
    intro t hlen hne
    cases t with
    | nil => simp at hlen
    | cons d t2 =>
      by_cases hcd : c = d
      · have hne2 : s2 ≠ t2 := by
          intro hc
          exact hne (by rw [hcd, hc])
        exact List.mem_cons_of_mem _ (ih t2 (by simpa using hlen) hne2)
      · simp [hcd]

/-- The Section 7 reduction `x = vect[0]; for i in ...: x = x * vect[i]` over
the character-equality indicator vector computes the full-string equality
indicator. -/
theorem matchScalar_ind (s t : List Char) (hlen : s.length = t.length)
    (hne : s ≠ []) :
    matchScalar (List.zipWith (fun c d => if c = d then (1 : Nat) else 0) s t) =
      some (if s = t then 1 else 0) := by
  match s, t, hlen with
  | c :: s2, d :: t2, hlen =>
    by_cases hst : c :: s2 = d :: t2
    · rw [hst, zip_ind_self]
      rw [if_pos rfl]
      have hall : ∀ x ∈ List.replicate (d :: t2).length 1, x = 1 := by
        intro x hx
        exact (List.eq_of_mem_replicate hx)
      simp only [matchScalar, List.length_cons, List.replicate_succ]
      rw [foldl_mul_ones _ (by simp [List.replicate_succ] at hall; simp [hall]) 1]
    · have h0 : (0 : Nat) ∈
          List.zipWith (fun c d => if c = d then (1 : Nat) else 0)
            (c :: s2) (d :: t2) := zero_mem_zip_ind (c :: s2) (d :: t2) hlen hst
      rw [if_neg hst]
      simp only [List.zipWith_cons_cons, matchScalar]
      rw [foldl_mul_mem_zero _ _ (by simpa using h0)]

/-- Full one-hot match: the match scalar of two encoded keys is the equality
indicator of their fixed (truncated / lowercased / padded) strings. -/
theorem ohMatch_eq (k q : List Char) (L : Nat) (km qm : List (List Nat))
    (hk : string2one_hot_matrix k L = some km)
    (hq : string2one_hot_matrix q L = some qm) (hL : 0 < L) :
    matchScalar (rowDots km qm) =
      some (if fixString k L = fixString q L then 1 else 0) := by
  have h1 : rowDots km qm =
      List.zipWith (fun c d => if c = d then (1 : Nat) else 0)
        (fixString k L) (fixString q L) :=
    rowDots_enc (fixString k L) (fixString q L) km qm hk hq
  rw [h1]
  apply matchScalar_ind
  · rw [fixString_length, fixString_length]
  · intro hc
    have := fixString_length k L
    rw [hc] at this
    simp at this
    omega

theorem string2values7_is_mapOpt (s : List Char) (maxLen : Nat) :
    string2values7 s maxLen = mapOpt (char2int alphabet7) (fixString s maxLen) := rfl

/-- Section 7 `DecentralizedDB`: a store built by `add_entry` from entries
whose fixed key strings are pairwise distinct answers `query(key_i)` with the
stored value — lowercased, truncated / right-padded to `max_value_len`, then
stripped of every `'.'` by `result.replace(".","")`. -/
theorem ohQuery_returns (L V : Nat) (entries : List (List Char × List Char))
    (db : OneHotDB) (hL : 0 < L)
    (hb : buildOneHotDB ⟨L, V, [], []⟩ entries = some db)
    (hnd : (entries.map (fun e => fixString e.1 L)).Nodup)
    (i : Nat) (hi : i < entries.length) :
    ohQuery db (entries.get ⟨i, hi⟩).1 =
      some ((fixString (entries.get ⟨i, hi⟩).2 V).filter (fun c => c ≠ '.')) := by
  obtain ⟨hK, hV, ks, vs, hks, hvs, hkeys, hvals⟩ :=
    buildOneHot_spec entries ⟨L, V, [], []⟩ db hb
  simp only [List.nil_append] at hkeys hvals
  have hK2 : db.maxKeyLen = L := hK
  have hkslen : ks.length = entries.length := mapOpt_length entries ks hks
  have hvslen : vs.length = entries.length := mapOpt_length entries vs hvs
  have hiks : i < ks.length := by rw [hkslen]; exact hi
  have hivs : i < vs.length := by rw [hvslen]; exact hi
  have hqe : string2one_hot_matrix (entries.get ⟨i, hi⟩).1 L =
      some (ks.get ⟨i, hiks⟩) := mapOpt_get entries ks hks i hi hiks
  have hmaskex : ∀ key ∈ ks, ∃ b,
      matchScalar (rowDots key (ks.get ⟨i, hiks⟩)) = some b := by
    intro key hkey
    obtain ⟨⟨j, hj⟩, rfl⟩ := List.mem_iff_get.mp hkey
    have hjent : j < entries.length := by rw [← hkslen]; exact hj
    have hje : string2one_hot_matrix (entries.get ⟨j, hjent⟩).1 L =
        some (ks.get ⟨j, hj⟩) := mapOpt_get entries ks hks j hjent hj
    exact ⟨_, ohMatch_eq (entries.get ⟨j, hjent⟩).1 (entries.get ⟨i, hi⟩).1 L
      _ _ hje hqe hL⟩
  obtain ⟨masks, hmasks⟩ := mapOpt_total ks hmaskex
  have hmasklen : masks.length = ks.length := mapOpt_length ks masks hmasks
  have hmget : ∀ (j : Nat) (hj : j < masks.length),
      masks.get ⟨j, hj⟩ = if j = i then 1 else 0 := by
    intro j hj
    have hjks : j < ks.length := by rw [← hmasklen]; exact hj
    have hjent : j < entries.length := by rw [← hkslen]; exact hjks
    have hje : string2one_hot_matrix (entries.get ⟨j, hjent⟩).1 L =
        some (ks.get ⟨j, hjks⟩) := mapOpt_get entries ks hks j hjent hjks
    have hm1 : matchScalar (rowDots (ks.get ⟨j, hjks⟩) (ks.get ⟨i, hiks⟩)) =
        some (masks.get ⟨j, hj⟩) := mapOpt_get ks masks hmasks j hjks hj
    have hm2 := ohMatch_eq (entries.get ⟨j, hjent⟩).1 (entries.get ⟨i, hi⟩).1 L
      _ _ hje hqe hL
    rw [hm1] at hm2
    rw [Option.some_inj.mp hm2]
    by_cases hji : j = i
    · subst hji
      simp
    · have hneq : fixString (entries.get ⟨j, hjent⟩).1 L ≠
          fixString (entries.get ⟨i, hi⟩).1 L := by
        intro hc
        apply hji
        have himap : i < (entries.map (fun e => fixString e.1 L)).length := by
          simpa using hi
        have hjmap : j < (entries.map (fun e => fixString e.1 L)).length := by
          simpa using hjent
        have hgets : (entries.map (fun e => fixString e.1 L)).get ⟨j, hjmap⟩ =
            (entries.map (fun e => fixString e.1 L)).get ⟨i, himap⟩ := by
          simp only [List.get_eq_getElem, List.getElem_map]
          simp only [List.get_eq_getElem] at hc
          exact hc
        have := hnd.get_inj_iff.mp hgets
        simpa using this
      simp only [List.get_eq_getElem] at hneq
      simp [hji, hneq]
  have hvsL : ∀ w ∈ vs, w.length = V := by
    intro w hw
    obtain ⟨e, he, hfe⟩ := mapOpt_mem entries vs hvs w hw
    have hfe2 : string2values7 e.2 V = some w := hfe
    exact string2values7_length e.2 V w hfe2
  have hagg : aggregate masks vs = some (vs.get ⟨i, hivs⟩) :=
    agg_select i masks vs V (by rw [hmasklen, hkslen, hvslen]) hvsL hmget hivs
  have henc : mapOpt (char2int alphabet7) (fixString (entries.get ⟨i, hi⟩).2 V) =
      some (vs.get ⟨i, hivs⟩) := mapOpt_get entries vs hvs i hi hivs
  have hdec : values2string6 alphabet7 (vs.get ⟨i, hivs⟩) =
      fixString (entries.get ⟨i, hi⟩).2 V :=
    decode_sentinel_roundtrip alphabet7 _ _ henc
  rw [ohQuery, hK2, hkeys, hvals, hqe, Option.some_bind, hmasks,
    Option.some_bind, hagg, Option.map_some', hdec]

/-! ### Shape of one-hot rows, and truncation / padding relations -/

theorem oneHot_length : ∀ (n i : Nat), (oneHot i n).length = n := by
  intro n
  induction n with
  | zero => intro i; cases i <;> rfl
  | succ n ih =>
    intro i
    cases i with
    | zero => simp [oneHot]
    | succ i2 => simp [oneHot, ih i2]

theorem oneHot_mem01 : ∀ (n i x : Nat), x ∈ oneHot i n → x = 0 ∨ x = 1 := by
  intro n
  induction n with
  | zero => intro i x hx; cases i <;> simp [oneHot] at hx
  | succ n ih =>
    intro i x hx
    cases i with
    | zero =>
      rcases List.mem_cons.mp hx with h1 | h1
      · exact Or.inr h1
      · exact Or.inl (List.eq_of_mem_replicate h1)
    | succ i2 =>
      rcases List.mem_cons.mp hx with h1 | h1
      · exact Or.inl h1
      · exact ih i2 x h1

theorem oneHot_count_one : ∀ (n i : Nat), i < n → (oneHot i n).count 1 = 1 := by
  intro n
  induction n with
  | zero => intro i hi; omega
  | succ n ih =>
    intro i hi
    cases i with
    | zero => simp [oneHot, List.count_cons, List.count_replicate]
    | succ i2 => simp [oneHot, List.count_cons, ih i2 (by omega)]

theorem padOrTruncate_length (s : List Char) (L : Nat) (pad : Char) :
    (padOrTruncate s L pad).length = L := by
  simp only [padOrTruncate, List.length_append, List.length_replicate,
    List.length_take]
  omega

theorem toLower_dot : Char.toLower '.' = '.' := by decide

/-- Re-encoding the truncated / padded key encodes to the same matrix: the
encoder depends on a key string only through `pad_or_truncate`. -/
theorem fixString_padOrTruncate (s : List Char) (L : Nat) :
    fixString (padOrTruncate s L '.') L = fixString s L := by
  have hlen : (padOrTruncate s L '.').length = L := padOrTruncate_length s L '.'
  have htake : (padOrTruncate s L '.').take L = padOrTruncate s L '.' :=
    List.take_of_length_le (le_of_eq hlen)
  show ((padOrTruncate s L '.').take L).map Char.toLower ++
      List.replicate
        (L - (((padOrTruncate s L '.').take L).map Char.toLower).length) '.' =
      fixString s L
  rw [htake, List.length_map, hlen]
  simp only [Nat.sub_self, List.replicate_zero, List.append_nil]
  simp only [padOrTruncate, List.map_append, List.map_replicate, toLower_dot]
  simp only [fixString, List.length_map]

/-- The fixed string is exactly `pad_or_truncate` of the lowercased input. -/
theorem fixString_eq_padOrTruncate_lower (s : List Char) (L : Nat) :
    fixString s L = padOrTruncate (s.map Char.toLower) L '.' := by
  simp only [fixString, padOrTruncate, List.map_take, List.length_take,
    List.length_map]

theorem zip_ind_mem01 : ∀ (s t : List Char) (x : Nat),
    x ∈ List.zipWith (fun c d => if c = d then (1 : Nat) else 0) s t →
    x = 0 ∨ x = 1 := by
  intro s
  induction s with
  | nil => intro t x hx; simp at hx
  | cons c s2 ih =>
    intro t x hx
    cases t with
    | nil => simp at hx
    | cons d t2 =>
      rcases List.mem_cons.mp hx with h1 | h1
      · by_cases hcd : c = d
        · simp [hcd] at h1
          exact Or.inr h1
        · simp [hcd] at h1
          exact Or.inl h1
      · exact ih t2 x h1

/-! ### Claim theorems -/

/-- C1 (amended): for every store whose entries have pairwise-distinct encoded
keys, querying the `i`-th key returns the `i`-th stored value as the engine
decodes it. Section 5's `TensorDB` (with all stored values of one common
length) returns exactly `value_i`; Section 7's one-hot store returns
`value_i` lowercased, truncated / right-padded to `max_value_len`, with every
`'.'` character removed by `result.replace(".","")` — exactly `value_i` only
when `value_i` is a lowercase, dot-free alphabet string of length at most
`max_value_len`. -/
theorem claim_c1_query_returns_entry_value :
    (∀ (h : List Char → Int) (f : Int)
      (entries : List (List Char × List Char)) (db : TensorDB) (n : Nat),
      buildTensorDB h f ⟨[], []⟩ entries = some db →
      (entries.map (fun e => string2key5 h f e.1)).Nodup →
      (∀ e ∈ entries, e.2.length = n) →
      ∀ (i : Nat) (hi : i < entries.length),
        tensorQuery h f db (entries.get ⟨i, hi⟩).1 =
          some (entries.get ⟨i, hi⟩).2) ∧
    (∀ (L V : Nat) (entries : List (List Char × List Char)) (db : OneHotDB),
      0 < L →
      buildOneHotDB ⟨L, V, [], []⟩ entries = some db →
      (entries.map (fun e => fixString e.1 L)).Nodup →
      ∀ (i : Nat) (hi : i < entries.length),
        ohQuery db (entries.get ⟨i, hi⟩).1 =
          some ((fixString (entries.get ⟨i, hi⟩).2 V).filter (fun c => c ≠ '.'))) :=
  ⟨fun h f entries db n hb hnd hlen i hi =>
      tensorQuery_returns h f entries db n hb hnd hlen i hi,
   fun L V entries db hL hb hnd i hi =>
      ohQuery_returns L V entries db hL hb hnd i hi⟩

/-- C1 counterexample: the one-hot store does not return exactly the stored
value. The store with the single entry `("bo", "a.b")` (`max_key_len = 2`,
`max_value_len = 4`, keys trivially pairwise distinct) answers
`query("bo")` with `"ab"`, not `"a.b"`: the query strips the `'.'` of the
value itself along with the padding. -/
theorem claim_c1_counterexample :
    (ohAddEntry ⟨2, 4, [], []⟩ ['b', 'o'] ['a', '.', 'b']).bind
        (fun db => ohQuery db ['b', 'o']) = some ['a', 'b'] ∧
    (['a', 'b'] : List Char) ≠ ['a', '.', 'b'] := by decide

theorem claim_c1_witness :
    tensorQuery (fun _ => 0) 97 ⟨[0], [[24, 25]]⟩ ['b'] = some ['x', 'y'] := by
  have hb : buildTensorDB (fun _ => (0 : Int)) 97 ⟨[], []⟩
      [(['b'], ['x', 'y'])] = some ⟨[0], [[24, 25]]⟩ := by decide
  have hq := claim_c1_query_returns_entry_value.1 (fun _ => 0) 97
    [(['b'], ['x', 'y'])] ⟨[0], [[24, 25]]⟩ 2 hb (by decide) (by decide)
    0 (by decide)
  simpa using hq

/-- C2: the Section 6 query has no retry ceiling. Whenever the sentinel check
accepts the decoded reveal of every attempt (in particular on six — or any
number of — consecutive all-`'.'` decodes), the retry recursion never
returns: unfolding it any finite number of times yields no result, where the
claim (and the spec) require termination with RetryExhausted/NotFound after
`max_retries`. -/
theorem claim_c2_unbounded_retry_never_returns :
    ∀ (check : List Char → Bool) (decodeAt : Nat → List Char),
    (∀ t : Nat, check (decodeAt t) = true) →
    ∀ (fuel t : Nat), queryRetry check decodeAt fuel t = none := by
  intro check decodeAt hall fuel
  induction fuel with
  | zero => intro t; simp [queryRetry, hall t]
  | succ f ih => intro t; simp [queryRetry, hall t, ih (t + 1)]

theorem claim_c2_witness :
    queryRetry (fun r => r.all (fun c => c == '.'))
      (fun _ => List.replicate 14 '.') 5 0 = none :=
  claim_c2_unbounded_retry_never_returns _ _ (fun _ => by decide) 5 0

/-- C3: the code has no NotFound result. Querying the Section 5 store
`{"Bob": "(123) 456-7890"}` for the absent key `"Zoe"` returns the decode of
the all-zero aggregate — a string of 14 spaces (code 0 is `' '`), an ordinary
non-sentinel string indistinguishable from a stored value of spaces — rather
than any NotFound/RetryExhausted outcome. -/
theorem claim_c3_unknown_key_returns_spaces :
    (tensorAddEntry hashAscii 1000 ⟨[], []⟩ ['B', 'o', 'b']
        ['(', '1', '2', '3', ')', ' ', '4', '5', '6', '-', '7', '8', '9', '0']).bind
      (fun db => tensorQuery hashAscii 1000 db ['Z', 'o', 'e']) =
    some (List.replicate 14 ' ') := by decide

/-- C4: two entries sharing an encoded key sum their values elementwise: with
the store `[(e, v1), (e, v2)]` and query hash `e`, both match scalars are 1
and the aggregation step returns the elementwise sum of `v1` and `v2`. -/
theorem claim_c4_duplicate_keys_sum (e : Int) (v1 v2 : List Nat)
    (hlen : v1.length = v2.length) :
    aggregate (tensorKeyMatch [e, e] e) [v1, v2] =
      some (List.zipWith (· + ·) v1 v2) := by
  have h1 : tensorKeyMatch [e, e] e = [1, 1] := by simp [tensorKeyMatch]
  have h2 : valueMatch [1, 1] [v1, v2] = some [v1, v2] := by
    rw [valueMatch_cons, valueMatch_cons, valueMatch_nil]
    simp [map_one_mul]
  rw [h1, aggregate_of_cons _ _ _ _ h2]
  simp [sumVecs, tensorAdd, hlen]

theorem claim_c4_witness :
    aggregate (tensorKeyMatch [0, 0] 0) [[1, 2], [3, 4]] = some [4, 6] := by
  have hs := claim_c4_duplicate_keys_sum 0 [1, 2] [3, 4] (by decide)
  simpa using hs

/-- C5: in one-hot mode the per-position row dot products are exactly the
character-equality indicators of the two fixed (truncated / lowercased /
padded) key strings — in particular each is confined to 0 or 1 — and the
sequential multiplicative reduction (which multiplies `vect[0]` in twice)
yields match scalar 1 exactly when every position matches and 0 otherwise. -/
theorem claim_c5_one_hot_match (k q : List Char) (L : Nat)
    (km qm : List (List Nat))
    (hk : string2one_hot_matrix k L = some km)
    (hq : string2one_hot_matrix q L = some qm) :
    rowDots km qm =
      List.zipWith (fun c d => if c = d then (1 : Nat) else 0)
        (fixString k L) (fixString q L) ∧
    (∀ d ∈ rowDots km qm, d = 0 ∨ d = 1) ∧
    (0 < L → matchScalar (rowDots km qm) =
      some (if fixString k L = fixString q L then 1 else 0)) := by
  have h1 := rowDots_enc (fixString k L) (fixString q L) km qm hk hq
  refine ⟨h1, ?_, fun hL => ohMatch_eq k q L km qm hk hq hL⟩
  intro d hd
  rw [h1] at hd
  exact zip_ind_mem01 _ _ d hd

theorem claim_c5_witness :
    matchScalar (rowDots [oneHot 1 69] [oneHot 1 69]) = some 1 := by
  have henc : string2one_hot_matrix ['a'] 1 = some [oneHot 1 69] := by decide
  have h3 := (claim_c5_one_hot_match ['a'] ['a'] 1 _ _ henc henc).2.2 (by decide)
  simpa using h3

/-- C6 (amended): decoding the Section 7 value encoding of `s` returns
`pad_or_truncate` of the LOWERCASED `s` (pad symbol `'.'`), not of `s`
itself: `decode_value(encode_value(s)) = pad_or_truncate(s.lower(),
max_value_len)`, for every `s` the encoder accepts. -/
theorem claim_c6_roundtrip_lowercased (s : List Char) (L : Nat) (enc : List Nat)
    (henc : string2values7 s L = some enc) :
    values2string6 alphabet7 enc = fixString s L ∧
    fixString s L = padOrTruncate (s.map Char.toLower) L '.' :=
  ⟨decode_sentinel_roundtrip alphabet7 (fixString s L) enc henc,
   fixString_eq_padOrTruncate_lower s L⟩

/-- C6 counterexample: for `s = "B"` and `max_value_len = 3`,
`decode_value(encode_value(s))` is `"b.."` while `pad_or_truncate(s, 3)` is
`"B.."` — the encoder lowercases, so the round trip of the claim fails. -/
theorem claim_c6_counterexample :
    (string2values7 ['B'] 3).map (values2string6 alphabet7) =
      some ['b', '.', '.'] ∧
    (['b', '.', '.'] : List Char) ≠ padOrTruncate ['B'] 3 '.' := by decide

theorem claim_c6_witness :
    values2string6 alphabet7 [2, 50, 50] = fixString ['B'] 3 :=
  (claim_c6_roundtrip_lowercased ['B'] 3 [2, 50, 50] (by decide)).1

/-- C7 (amended): the hashed-scalar key encoding is `hash(k) mod FIELD` in
Section 5 but `(hash(k) + 1234) mod FIELD` in Section 6; for a positive
field modulus both encodings lie in `[0, FIELD)`. -/
theorem claim_c7_key_encoding (h : List Char → Int) (field : Int)
    (k : List Char) (hpos : 0 < field) :
    string2key5 h field k = h k % field ∧
    string2key6 h field k = (h k + 1234) % field ∧
    0 ≤ string2key5 h field k ∧ string2key5 h field k < field ∧
    0 ≤ string2key6 h field k ∧ string2key6 h field k < field := by
  refine ⟨rfl, rfl, ?_, ?_, ?_, ?_⟩
  · exact Int.emod_nonneg _ (by omega)
  · exact Int.emod_lt_of_pos _ hpos
  · exact Int.emod_nonneg _ (by omega)
  · exact Int.emod_lt_of_pos _ hpos

/-- C7 counterexample: with the hash fixed to 0, Section 6's key encoding is
`1234 % FIELD = 1234`, not `hash(k) % FIELD = 0` — the claim's formula omits
the `+ 1234` of the Section 6 encoder. -/
theorem claim_c7_counterexample :
    ¬(string2key6 (fun _ => 0) 2147483647 ['a'] =
      (fun (_ : List Char) => (0 : Int)) ['a'] % 2147483647) := by decide

theorem claim_c7_witness :
    0 ≤ string2key6 (fun _ => (-5 : Int)) 7 ['a'] ∧
    string2key6 (fun _ => (-5 : Int)) 7 ['a'] < 7 :=
  ⟨(claim_c7_key_encoding (fun _ => (-5 : Int)) 7 ['a'] (by decide)).2.2.2.2.1,
   (claim_c7_key_encoding (fun _ => (-5 : Int)) 7 ['a'] (by decide)).2.2.2.2.2⟩

/-- C8: the one-hot key encoding of any accepted key is a
`maxKeyLen × alphabetSize` matrix whose rows are one-hot over the configured
alphabet (length `alphabetSize`, exactly one 1, all other entries 0), and the
encoding depends on the key only through truncation to the first `maxKeyLen`
characters and right-padding with the pad symbol `'.'`. -/
theorem claim_c8_one_hot_shape (s : List Char) (L : Nat) (m : List (List Nat))
    (hm : string2one_hot_matrix s L = some m) :
    m.length = L ∧
    (∀ row ∈ m, row.length = alphabet7.length ∧
      (∃ j, j < alphabet7.length ∧ row = oneHot j alphabet7.length) ∧
      row.count 1 = 1 ∧ (∀ x ∈ row, x = 0 ∨ x = 1)) ∧
    string2one_hot_matrix (padOrTruncate s L '.') L = some m := by
  have hm2 : mapOpt rowEnc (fixString s L) = some m := hm
  refine ⟨?_, ?_, ?_⟩
  · rw [mapOpt_length (fixString s L) m hm2, fixString_length]
  · intro row hrow
    obtain ⟨c, _, hfc⟩ := mapOpt_mem (fixString s L) m hm2 row hrow
    rw [rowEnc, Option.map_eq_some'] at hfc
    obtain ⟨j, hj, rfl⟩ := hfc
    have hjlt := char2int_lt alphabet7 c j hj
    exact ⟨oneHot_length _ _, ⟨j, hjlt, rfl⟩, oneHot_count_one _ j hjlt,
      fun x hx => oneHot_mem01 _ j x hx⟩
  · rw [string2one_hot_matrix, fixString_padOrTruncate]
    exact hm2

theorem claim_c8_witness :
    string2one_hot_matrix (padOrTruncate ['a'] 1 '.') 1 = some [oneHot 1 69] :=
  (claim_c8_one_hot_shape ['a'] 1 [oneHot 1 69] (by decide)).2.2

/-- C9: on a store with zero records, every query of every engine fails (the
`value_match[0]` of the aggregation step raises `IndexError`, modelled as
`none`) instead of returning a NotFound result: the query is only
well-defined once at least one entry has been added. -/
theorem claim_c9_empty_store_query_fails :
    (∀ (h : List Char → Int) (f : Int) (q : List Char),
      tensorQuery h f ⟨[], []⟩ q = none) ∧
    (∀ (L V : Nat) (q : List Char), ohQuery ⟨L, V, [], []⟩ q = none) := by
  constructor
  · intro h f q
    rfl
  · intro L V q
    rw [ohQuery]
    cases string2one_hot_matrix q (OneHotDB.mk L V [] []).maxKeyLen with
    | none => rfl
    | some qe => rfl

/-- C10: `add_entry` appends exactly one encoding to the keys list and one to
the values list (in both the one-hot and the hashed `DecentralizedDB`), so it
preserves the invariant that the two lists have equal length; a failing
encode appends to neither list. -/
theorem claim_c10_add_entry_preserves_lengths :
    (∀ (db : OneHotDB) (k v : List Char) (db2 : OneHotDB),
      ohAddEntry db k v = some db2 →
      db2.keys.length = db.keys.length + 1 ∧
      db2.values.length = db.values.length + 1 ∧
      (db.keys.length = db.values.length →
        db2.keys.length = db2.values.length)) ∧
    (∀ (h : List Char → Int) (f : Int) (db : TensorDB) (k v : List Char)
      (db2 : TensorDB), hashedAddEntry h f db k v = some db2 →
      db2.keys.length = db.keys.length + 1 ∧
      db2.values.length = db.values.length + 1 ∧
      (db.keys.length = db.values.length →
        db2.keys.length = db2.values.length)) := by
  constructor
  · intro db k v db2 hadd
    rw [ohAddEntry, Option.bind_eq_some] at hadd
    obtain ⟨ke, _, hmm⟩ := hadd
    rw [Option.map_eq_some'] at hmm
    obtain ⟨ve, _, hdb⟩ := hmm
    rw [← hdb]
    refine ⟨by simp, by simp, fun hh => by simp [hh]⟩
  · intro h f db k v db2 hadd
    rw [hashedAddEntry, Option.map_eq_some'] at hadd
    obtain ⟨ve, _, hdb⟩ := hadd
    rw [← hdb]
    refine ⟨by simp, by simp, fun hh => by simp [hh]⟩

theorem claim_c10_witness :
    (OneHotDB.mk 1 1 [[oneHot 1 69]] [[1]]).keys.length =
        (OneHotDB.mk 1 1 [] []).keys.length + 1 ∧
    (OneHotDB.mk 1 1 [[oneHot 1 69]] [[1]]).values.length =
        (OneHotDB.mk 1 1 [] []).values.length + 1 ∧
    ((OneHotDB.mk 1 1 [] []).keys.length =
        (OneHotDB.mk 1 1 [] []).values.length →
      (OneHotDB.mk 1 1 [[oneHot 1 69]] [[1]]).keys.length =
        (OneHotDB.mk 1 1 [[oneHot 1 69]] [[1]]).values.length) :=
  claim_c10_add_entry_preserves_lengths.1 ⟨1, 1, [], []⟩ ['a'] ['a']
    ⟨1, 1, [[oneHot 1 69]], [[1]]⟩ (by decide)
